import Mathlib

/-
Verification of the mdsplit library (mdsplit.go): a markdown-aware text
splitter that cuts a document into chunks of at most a given byte length,
preserving markdown/HTML decorations across chunk boundaries, with a simple
fixed-length fallback splitter.

Modelling conventions:
- Go strings are modelled as `List Char` (`Str`); the source operates at byte
  granularity and all string data in the claims and tests is ASCII, where one
  character is one byte, so list length models Go `len`.
- The markdown parser (github.com/russross/blackfriday) is an external
  dependency, explicitly out of scope per the specification ("the markdown
  parser itself is treated as a black box that yields a tree of typed nodes").
  `MarkdownSplit` therefore takes the parse tree as an argument alongside the
  raw text.
- The unique-token generator (github.com/google/uuid) is likewise external
  ("unique-token generation is treated as an external provider of a
  sufficiently unique string"); `MarkdownSplit` takes the rendered
  placeholder token (Go: `fmt.Sprintf("<%s>", uuid.New().String())`) as an
  argument.
- blackfriday's `Node.Walk` calls the visitor on entering and, for container
  nodes, again on leaving.  The visitor in mdsplit.go ignores the `entering`
  flag and is a no-op on every node without literal text; container nodes
  carry no literal, so the leaving visits are no-ops and the walk is modelled
  as a single pre-order visit of each node carrying its ancestor chain (the
  source reads the chain through `node.Parent` back-pointers).
- Go `int` arithmetic is modelled on `Nat` (all quantities involved are
  non-negative), and `int(math.Ceil(float64(a)/float64(b)))` is modelled as
  exact natural ceiling division.
-/

namespace MdSplit

/-- Go strings at byte granularity. -/
abbrev Str := List Char

/-- Wrapper (source: `type wrapper struct begin, end string`); the `end`
field is renamed `endStr` because `end` is a Lean keyword. -/
structure Wrapper where
  begin : Str
  endStr : Str
deriving DecidableEq, Repr

/-- Piece of literal content plus its wrappers
(source: `type chunk struct content string; wrappers []*wrapper`). -/
structure Chunk where
  content : Str
  wrappers : List Wrapper
deriving DecidableEq, Repr

/-- blackfriday node types (blackfriday v2 `NodeType`).  `code` is the inline
code-span node and `codeBlock` the fenced block, as in blackfriday. -/
inductive NodeType where
  | document | blockQuote | list | item | paragraph | heading | horizontalRule
  | emph | strong | del | link | image | text | htmlBlock | codeBlock
  | softbreak | hardbreak | code | htmlSpan | table | tableCell | tableHead
  | tableBody | tableRow
deriving DecidableEq, Repr

/-- Link metadata (blackfriday `LinkData`), the fields mdsplit reads. -/
structure LinkData where
  destination : Str
  title : Str
deriving DecidableEq, Repr

/-- Parse-tree node: type tag, optional literal text, heading level and link
data (the per-type metadata mdsplit reads), and children in document order.
Parent pointers of the source tree are modelled by passing the ancestor
chain during the walk. -/
inductive Node where
  | mk (type : NodeType) (literal : Option Str) (level : Nat)
       (linkData : LinkData) (children : List Node)

def Node.type : Node → NodeType
  | .mk t _ _ _ _ => t

def Node.literal : Node → Option Str
  | .mk _ l _ _ _ => l

def Node.level : Node → Nat
  | .mk _ _ lv _ _ => lv

def Node.linkData : Node → LinkData
  | .mk _ _ _ ld _ => ld

def Node.children : Node → List Node
  | .mk _ _ _ _ cs => cs

/-- Convenience constructors for concrete parse trees. -/
def textNode (s : String) : Node := .mk .text (some s.toList) 0 ⟨[], []⟩ []

def codeNode (s : String) : Node := .mk .code (some s.toList) 0 ⟨[], []⟩ []

def htmlSpanNode (s : String) : Node := .mk .htmlSpan (some s.toList) 0 ⟨[], []⟩ []

def headingNode (lvl : Nat) (cs : List Node) : Node := .mk .heading none lvl ⟨[], []⟩ cs

def paragraphNode (cs : List Node) : Node := .mk .paragraph none 0 ⟨[], []⟩ cs

def documentNode (cs : List Node) : Node := .mk .document none 0 ⟨[], []⟩ cs

def listNode (cs : List Node) : Node := .mk .list none 0 ⟨[], []⟩ cs

/-- Go `strings.Replace(s, old, new, 1)`: replace the first occurrence of
`old` (call sites always pass a non-empty `old`). -/
def replaceFirst (s old new : Str) : Str :=
  match s with
  | [] => []
  | c :: rest =>
    if old.isPrefixOf (c :: rest) then new ++ (c :: rest).drop old.length
    else c :: replaceFirst rest old new

/-- Go `strings.TrimLeft(s, cutset)`: drop leading characters that are
members of `cutset` (cutset semantics, not a literal-prefix removal). -/
def trimLeftCutset (s cutset : Str) : Str :=
  s.dropWhile (fun c => cutset.contains c)

/-- Go `strings.TrimRight(s, cutset)`. -/
def trimRightCutset (s cutset : Str) : Str :=
  (s.reverse.dropWhile (fun c => cutset.contains c)).reverse

/-- Source `isHTMLOpeningTag`. -/
def isHTMLOpeningTag (tag : Str) : Bool :=
  if (("</").toList).isPrefixOf tag then false else true

/-- Source `getHTMLClosingTag`: `strings.Replace(open, "<", "</", 1)`. -/
def getHTMLClosingTag (openTag : Str) : Str :=
  replaceFirst openTag (("<").toList) (("</").toList)

/-- Source `buildChunks` loop body, made total by structural recursion on a
fuel argument initialised to `contents.length`.  The source loop consumes at
least one character per iteration whenever `chunkLen >= 1`, which every call
site guarantees (`chunkLen = max - extraLen` with `extraLen < max`), so the
fuel never runs out on reachable inputs (with `chunkLen = 0` the Go loop
would not terminate). -/
def buildChunksFuel (fuel : Nat) (contents : Str) (chunkLen : Nat)
    (wrappers : List Wrapper) : List Chunk :=
  match fuel, contents with
  | _, [] => []
  | 0, _ :: _ => []
  | fuel + 1, c :: rest =>
    if (c :: rest).length ≤ chunkLen then [⟨c :: rest, wrappers⟩]
    else ⟨(c :: rest).take chunkLen, wrappers⟩ ::
      buildChunksFuel fuel ((c :: rest).drop chunkLen) chunkLen wrappers

/-- Source `buildChunks`: cut `contents` into consecutive pieces of at most
`chunkLen` characters, all carrying the same wrapper list. -/
def buildChunks (contents : Str) (chunkLen : Nat) (wrappers : List Wrapper) :
    List Chunk :=
  buildChunksFuel contents.length contents chunkLen wrappers

/-- Walker state threaded through the tree walk (source: the local variables
`chunks`, `baseTitle`, `titleLen`, `htmlWrappers` of `MarkdownSplit`). -/
structure WalkState where
  chunks : List Chunk
  baseTitle : Str
  titleLen : Nat
  htmlWrappers : List Wrapper
deriving DecidableEq, Repr

def initialWalkState : WalkState := ⟨[], [], 0, []⟩

/-- Source `titleSuffixFmt := " (%d/%s)\n\n"` (its length, 10, enters the
reserved title length). -/
def titleSuffixFmt : Str := (" (%d/%s)\n\n").toList

/-- Rendering of the title suffix: `fmt.Sprintf(titleSuffixFmt, curChunk, id)`. -/
def renderTitleSuffix (curChunk : Nat) (totalID : Str) : Str :=
  (" (").toList ++ (Nat.repr curChunk).toList ++ (("/").toList) ++ totalID ++
    ((")\n\n").toList)

/-- Result of the ancestor loop of the visitor: either the first heading was
captured as the pagination base title (the source then returns `GoToNext`
immediately), or the resolved wrapper list, closest ancestor first. -/
inductive AncRes where
  | captured (baseTitle : Str) (titleLen : Nat)
  | resolved (ws : List Wrapper)
deriving DecidableEq, Repr

def AncRes.consW (r : AncRes) (w : Wrapper) : AncRes :=
  match r with
  | .captured bt tl => .captured bt tl
  | .resolved l => .resolved (w :: l)

/-- The `for parent != nil` loop of the visitor (source lines 75-123):
walk the ancestor chain outward, collecting one wrapper per
del / emph / strong / heading / link ancestor; the first heading seen while
`baseTitle == "" && len(chunks) == 0` is captured as the base title instead
(aborting the rest of the node's processing). -/
def ancestorWrappers (contents : Str) (canCapture : Bool) :
    List Node → AncRes
  | [] => .resolved []
  | parent :: rest =>
    match parent.type with
    | .del => (ancestorWrappers contents canCapture rest).consW
        ⟨("~~").toList, ("~~").toList⟩
    | .emph => (ancestorWrappers contents canCapture rest).consW
        ⟨("_").toList, ("_").toList⟩
    | .strong => (ancestorWrappers contents canCapture rest).consW
        ⟨("**").toList, ("**").toList⟩
    | .heading =>
      let heading := List.replicate parent.level '#'
      if canCapture then
        let baseTitle := heading ++ (" ").toList ++ contents
        .captured baseTitle (baseTitle.length + titleSuffixFmt.length + 10)
      else (ancestorWrappers contents canCapture rest).consW
        ⟨heading ++ (" ").toList, ("\n\n").toList⟩
    | .link =>
      let linkDest := parent.linkData.destination
      let linkTitle := parent.linkData.title
      let endStr := ("](").toList ++
        (if linkDest = [] then [] else linkDest) ++
        (if linkTitle = [] then []
         else (" \"").toList ++ linkTitle ++ ("\"").toList) ++
        (")").toList
      (ancestorWrappers contents canCapture rest).consW
        ⟨("[").toList, endStr⟩
    | _ => ancestorWrappers contents canCapture rest

/-- The `case blackfriday.Code` branch (source lines 126-138): if the literal
has a line break, its first line (inclusive) becomes part of the begin fence
and is removed from the content via `strings.TrimLeft` (cutset semantics);
trailing newlines are removed via `strings.TrimRight`.  Returns the adjusted
content and the fence wrapper. -/
def codeAdjust (lit : Str) : Str × Wrapper :=
  let (contents1, begin1) :=
    match lit.findIdx? (fun c => c == '\n') with
    | some i => (trimLeftCutset lit (lit.take (i + 1)),
        ("```").toList ++ lit.take (i + 1))
    | none => (lit, ("```\n").toList)
  (trimRightCutset contents1 (("\n").toList), ⟨begin1, ("\n```").toList⟩)

/-- The `case blackfriday.HTMLSpan` branch (source lines 140-151): an opening
tag is pushed (with its computed closing text) and contributes no content; a
closing tag equal to the top of the stack pops it and contributes no
content; any other closing tag leaves the stack alone and stays as content.
Returns the adjusted content and the new stack. -/
def htmlAdjust (lit : Str) (stack : List Wrapper) : Str × List Wrapper :=
  if isHTMLOpeningTag lit then
    ([], stack ++ [⟨lit, getHTMLClosingTag lit⟩])
  else
    match stack.getLast? with
    | some w => if lit = w.endStr then ([], stack.dropLast) else (lit, stack)
    | none => (lit, stack)

/-- Total begin+end length of a wrapper list (source lines 157-160). -/
def wrappersLen (ws : List Wrapper) : Nat :=
  (ws.map (fun w => w.begin.length + w.endStr.length)).sum

inductive AbortReason where
  /-- an unsupported list construct was seen (source lines 62-65) -/
  | list
  /-- budget exhausted: `extraLen >= max` for some run (source lines 167-170) -/
  | budget
deriving DecidableEq, Repr

/-- Result of visiting one node: continue with a new state
(`blackfriday.GoToNext`) or stop the whole walk (`blackfriday.Terminate`,
which the source pairs with `canSplit = false`). -/
inductive VisitRes where
  | next (s : WalkState)
  | term (r : AbortReason)
deriving DecidableEq, Repr

/-- The walk callback of `MarkdownSplit` (source lines 60-177) for a single
node, given its ancestor chain (closest first). -/
def visit (max : Nat) (sep : Str) (anc : List Node) (n : Node)
    (s : WalkState) : VisitRes :=
  if n.type = .list then .term .list
  else
    match n.literal with
    | none => .next s
    | some lit =>
      match ancestorWrappers lit (s.baseTitle.isEmpty && s.chunks.isEmpty) anc with
      | .captured bt tl => .next { s with baseTitle := bt, titleLen := tl }
      | .resolved ws0 =>
        let (contents, ws1, html) :=
          match n.type with
          | .code =>
            let (c, w) := codeAdjust lit
            (c, ws0 ++ [w], s.htmlWrappers)
          | .htmlSpan =>
            let (c, st) := htmlAdjust lit s.htmlWrappers
            (c, ws0, st)
          | _ => (lit, ws0, s.htmlWrappers)
        let wrappers := ws1 ++ html
        let extraLen := wrappersLen wrappers + s.titleLen + sep.length
        if max ≤ extraLen then .term .budget
        else
          .next { s with
                  htmlWrappers := html,
                  chunks := s.chunks ++
                    buildChunks contents (max - extraLen) wrappers }

/-- Walk outcome: completed (`canSplit` stayed true) or terminated. -/
inductive WalkRes where
  | ok (s : WalkState)
  | term (r : AbortReason)
deriving DecidableEq, Repr

mutual

/-- Pre-order walk of one node (visit it, then its children), source
`rootNode.Walk(...)`. -/
def walkNode (max : Nat) (sep : Str) (anc : List Node) (n : Node)
    (s : WalkState) : WalkRes :=
  match n with
  | .mk t lit lvl ld cs =>
    match visit max sep anc (.mk t lit lvl ld cs) s with
    | .term r => .term r
    | .next s1 => walkList max sep ((Node.mk t lit lvl ld cs) :: anc) cs s1

/-- Pre-order walk of a sibling list. -/
def walkList (max : Nat) (sep : Str) (anc : List Node) :
    List Node → WalkState → WalkRes
  | [], s => .ok s
  | c :: cs, s =>
    match walkNode max sep anc c s with
    | .term r => .term r
    | .ok s1 => walkList max sep anc cs s1

end

mutual

/-- Whether a list construct occurs anywhere in the tree. -/
def containsList (n : Node) : Bool :=
  match n with
  | .mk t _ _ _ cs => (t == NodeType.list) || containsListL cs

def containsListL : List Node → Bool
  | [] => false
  | c :: cs => containsList c || containsListL cs

end

/-- Render one piece: prepend every wrapper begin (in wrapper order, so the
last wrapper ends up outermost), then the content, then append every wrapper
end in the same order (source lines 254-264). -/
def renderPiece (cm : Chunk) : Str :=
  (cm.wrappers.foldl (fun acc w => w.begin ++ acc) []) ++ cm.content ++
    (cm.wrappers.foldl (fun acc w => acc ++ w.endStr) [])

/-- Assembler state: the output chunks built so far in reverse order (the Go
code appends to a slice and mutates its last element; keeping the list
reversed makes the mutable last element the head) and the 1-based index of
the next chunk (source `curChunk`). -/
structure AsmState where
  revResult : List Str
  curChunk : Nat
deriving DecidableEq, Repr

/-- One iteration of the assembler loop of `chunksAsStr` (source lines
253-282): greedily merge the rendered piece into the previous chunk if the
result still fits `max`, otherwise start a new chunk, prefixed with the
pagination title when a base title is active. -/
def asmStep (max : Nat) (baseTitle totalID : Str) (st : AsmState)
    (cm : Chunk) : AsmState :=
  let cmStr := renderPiece cm
  match st.revResult with
  | prev :: rest =>
    if prev.length + cmStr.length ≤ max then
      ⟨(prev ++ cmStr) :: rest, st.curChunk⟩
    else
      ⟨((if baseTitle = [] then []
         else baseTitle ++ renderTitleSuffix st.curChunk totalID) ++ cmStr)
        :: prev :: rest, st.curChunk + 1⟩
  | [] =>
    ⟨[(if baseTitle = [] then []
       else baseTitle ++ renderTitleSuffix st.curChunk totalID) ++ cmStr],
      st.curChunk + 1⟩

/-- The output chunks of `chunksAsStr` before the final placeholder
substitution pass. -/
def chunksAsStrPre (chunks : List Chunk) (max : Nat)
    (baseTitle totalID : Str) : List Str :=
  ((chunks.foldl (asmStep max baseTitle totalID) ⟨[], 1⟩).revResult).reverse

/-- Source `chunksAsStr` (lines 247-291): assemble the pieces into chunk
strings, then replace the first occurrence of the placeholder token in every
chunk by the decimal total chunk count.  `totalID` is the placeholder token
(`fmt.Sprintf("<%s>", uuid.New().String())` in the source; the uuid provider
is external, so the token is a parameter here). -/
def chunksAsStr (chunks : List Chunk) (max : Nat) (baseTitle totalID : Str) :
    List Str :=
  let result := chunksAsStrPre chunks max baseTitle totalID
  result.map (fun c => replaceFirst c totalID ((Nat.repr result.length).toList))

/-- Source `SimpleSplit`: fixed-length split with a separator appended to
every chunk but the last.  `int(math.Ceil(float64(len(text))/float64(maxSize)))`
is modelled as exact ceiling division. -/
def SimpleSplit (text : Str) (max : Nat) (sep : Str) : List Str :=
  if text.length ≤ max then [text]
  else if max ≤ sep.length then []
  else
    let maxSize := max - sep.length
    let numChunks := (text.length + maxSize - 1) / maxSize
    (List.range numChunks).map (fun i =>
      (text.drop (i * maxSize)).take maxSize ++
        (if i < numChunks - 1 then sep else []))

/-- Source `MarkdownSplit`.  `tree` is the blackfriday parse tree of `text`
(`md.Parse([]byte(text))`, external parser) and `titleTotalID` the unique
placeholder token (external uuid provider). -/
def MarkdownSplit (text : Str) (tree : Node) (max : Nat) (sep : Str)
    (titleTotalID : Str) : List Str × Bool :=
  if text.length ≤ max then ([text], true)
  else if max ≤ sep.length then ([], false)
  else
    match walkNode max sep [] tree initialWalkState with
    | .term _ => (SimpleSplit text max sep, false)
    | .ok s => (chunksAsStr s.chunks max s.baseTitle titleTotalID, true)

/-- Source `MaxGithubCommentSize`. -/
def MaxGithubCommentSize : Nat := 65536

/-- Source `SplitGithubComment`. -/
def SplitGithubComment (text : Str) (tree : Node) (sep : Str)
    (titleTotalID : Str) : List Str × Bool :=
  MarkdownSplit text tree MaxGithubCommentSize sep titleTotalID

/-- A token of the shape the source generates (`<` + 36-character uuid + `>`,
38 bytes); used for concrete evaluations. -/
def uuidTok : Str := ("<00000000-0000-0000-0000-000000000000>").toList

/-- Specification-side shorthand: the pagination title prefix a chunk with
1-based index `k` receives before the substitution pass (empty when no base
title is active), exactly as `asmStep` builds it. -/
def titleStr (baseTitle totalID : Str) (k : Nat) : Str :=
  if baseTitle = [] then [] else baseTitle ++ renderTitleSuffix k totalID

/-- Specification-side freshness of the placeholder token, standing for the
"sufficiently unique string" contract of the external uuid provider: the
token is non-empty, no occurrence of the token starts strictly inside any
possible title prefix (so the first occurrence in a titled chunk is the one
the title carries), and if no base title is active the token does not occur
in the assembled chunks at all. -/
def TokenOK (token baseTitle : Str) (pieces : List Chunk) (max : Nat) : Prop :=
  token ≠ [] ∧
  (∀ i, i < pieces.length + 2 →
    ¬ token <:+: (baseTitle ++ (" (").toList ++ (Nat.repr i).toList ++
      ("/").toList ++ token.dropLast)) ∧
  (baseTitle = [] →
    ∀ c ∈ chunksAsStrPre pieces max baseTitle token, ¬ token <:+: c)

/-- Specification-side invariant carried through the assembler fold: the
chunk counter is one past the number of chunks built, and the chunks built
so far (held in reverse) partition the processed pieces into non-empty
consecutive groups, chunk `k` (1-based, so reverse index `j` holds chunk
`length - j`) being its title prefix followed by the concatenated renders
of its group. -/
def AsmInv (baseTitle totalID : Str) (processed : List Chunk)
    (st : AsmState) : Prop :=
  st.curChunk = st.revResult.length + 1 ∧
  ∃ groupsRev : List (List Chunk),
    groupsRev.length = st.revResult.length ∧
    groupsRev.reverse.flatten = processed ∧
    (∀ g ∈ groupsRev, g ≠ []) ∧
    ∀ j, j < st.revResult.length →
      st.revResult.getD j [] =
        titleStr baseTitle totalID (st.revResult.length - j) ++
          ((groupsRev.getD j []).map renderPiece).flatten

-- Sanity checks: the embedding reproduces the golden outputs of the
-- repository's own test suite (mdsplit_test.go), including parse trees as
-- blackfriday produces them for those inputs.

example : MarkdownSplit (("Some basic comment").toList)
    (documentNode [paragraphNode [textNode "Some basic comment"]]) 100 []
    uuidTok = ([("Some basic comment").toList], true) := by decide

example : MarkdownSplit (("Some basic comment").toList)
    (documentNode [paragraphNode [textNode "Some basic comment"]]) 10 []
    uuidTok = ([("Some basic").toList, (" comment").toList], true) := by
  decide

example : SimpleSplit (("Some basic comment").toList) 10 [] =
    [("Some basic").toList, (" comment").toList] := by decide

example : MarkdownSplit
    (("### Comment with title\n\nIncludes the title in every split.").toList)
    (documentNode [headingNode 3 [textNode "Comment with title"],
      paragraphNode [textNode "Includes the title in every split."]])
    55 [] uuidTok =
    ([("### Comment with title (1/3)\n\nIncludes the ").toList,
      ("### Comment with title (2/3)\n\ntitle in ever").toList,
      ("### Comment with title (3/3)\n\ny split.").toList], true) := by decide

example : MarkdownSplit (("<i>abcdefghij</i>").toList)
    (documentNode [paragraphNode [htmlSpanNode "<i>",
      textNode "abcdefghij", htmlSpanNode "</i>"]])
    12 [] uuidTok =
    ([("<i>abcde</i>").toList, ("<i>fghij</i>").toList], true) := by decide

-- Helper lemmas about the tree walk.

mutual

/-- A walk of a node that completes without terminating never saw a list
node in that subtree. -/
theorem walkNode_ok_no_list (max : Nat) (sep : Str) :
    ∀ (anc : List Node) (n : Node) (s s1 : WalkState),
    walkNode max sep anc n s = .ok s1 → containsList n = false
  | anc, .mk t lit lvl ld cs, s, s1 => by
    intro h
    rw [walkNode] at h
    by_cases ht : t = NodeType.list
    · exfalso
      subst ht
      simp [visit, Node.type] at h
    · rw [containsList]
      have hbeq : (t == NodeType.list) = false := by
        simpa using ht
      rw [hbeq, Bool.false_or]
      cases hv : visit max sep anc (.mk t lit lvl ld cs) s with
      | term r => rw [hv] at h; exact absurd h (by simp)
      | next s2 =>
        rw [hv] at h
        exact walkList_ok_no_list max sep _ _ _ _ h

/-- A walk of a sibling list that completes never saw a list node. -/
theorem walkList_ok_no_list (max : Nat) (sep : Str) :
    ∀ (anc : List Node) (l : List Node) (s s1 : WalkState),
    walkList max sep anc l s = .ok s1 → containsListL l = false
  | anc, [], s, s1 => by intro h; rfl
  | anc, c :: cs, s, s1 => by
    intro h
    rw [walkList] at h
    cases hv : walkNode max sep anc c s with
    | term r => rw [hv] at h; exact absurd h (by simp)
    | ok s2 =>
      rw [hv] at h
      rw [containsListL, walkNode_ok_no_list max sep _ _ _ _ hv,
        Bool.false_or]
      exact walkList_ok_no_list max sep _ _ _ _ h

end

-- C6

/-- C6 counterexample.  The claim states that for every text, whenever
`max <= len(sep)`, both entry points return an empty/absent result and
`MarkdownSplit` reports failure.  At text `""`, `max = 0`, `sep = ""` we
have `max <= len(sep)`, yet the `len(text) <= max` passthrough guard fires
first: `MarkdownSplit` returns `([""], true)` and `SimpleSplit` returns
`[""]` — a non-empty chunk list with success, falsifying the claim. -/
theorem C6_counterexample :
    (0 : Nat) ≤ (([] : Str)).length ∧
    MarkdownSplit [] (documentNode []) 0 [] uuidTok = ([([] : Str)], true) ∧
    MarkdownSplit [] (documentNode []) 0 [] uuidTok ≠ (([] : List Str), false) ∧
    SimpleSplit [] 0 [] = [([] : Str)] ∧
    SimpleSplit [] 0 [] ≠ ([] : List Str) := by decide

/-- C6 amended: for every text whose length exceeds `max` (so the
passthrough guard does not fire), if `max <= len(sep)` then `MarkdownSplit`
returns `(nil, false)` and `SimpleSplit` returns `nil`. -/
theorem C6_amended (text : Str) (tree : Node) (max : Nat) (sep tok : Str)
    (hlen : max < text.length) (hsep : max ≤ sep.length) :
    MarkdownSplit text tree max sep tok = ([], false) ∧
    SimpleSplit text max sep = [] := by
  constructor
  · unfold MarkdownSplit
    rw [if_neg (by omega), if_pos hsep]
  · unfold SimpleSplit
    rw [if_neg (by omega), if_pos hsep]

/-- Witness for C6 amended at text "ab", max 1, sep "x". -/
theorem C6_amended_witness :
    MarkdownSplit (("ab").toList) (documentNode []) 1 (("x").toList) uuidTok
      = ([], false) ∧
    SimpleSplit (("ab").toList) 1 (("x").toList) = [] :=
  C6_amended _ _ _ _ _ (by decide) (by decide)

-- C7

/-- C7: if the tree walk terminates with the budget abort (some text run's
`extraLen = wrapperOverhead + reservedTitleLength + len(sep)` reached
`max`, source lines 167-170), `MarkdownSplit` discards every piece
accumulated so far and returns exactly `SimpleSplit` of the original text
with `success = false`; no partially markdown-split output is returned. -/
theorem C7_budget_abort (text : Str) (tree : Node) (max : Nat) (sep tok : Str)
    (hlen : max < text.length) (hsep : sep.length < max)
    (habort : walkNode max sep [] tree initialWalkState = .term .budget) :
    MarkdownSplit text tree max sep tok = (SimpleSplit text max sep, false) := by
  unfold MarkdownSplit
  rw [if_neg (by omega), if_neg (by omega), habort]

/-- Witness for C7: a document whose leading heading reserves a title length
of 59 while `max = 40`, so the first text run aborts the walk. -/
theorem C7_witness :
    MarkdownSplit (("# A very long title for a narrow budget\n\nxy").toList)
      (documentNode [headingNode 1
        [textNode "A very long title for a narrow budget"],
        paragraphNode [textNode "xy"]]) 40 [] uuidTok
      = (SimpleSplit
          (("# A very long title for a narrow budget\n\nxy").toList) 40 [],
         false) :=
  C7_budget_abort _ _ _ _ _ (by decide) (by decide) (by decide)

-- C5

/-- C5 counterexample.  The claim states that every text whose parsed tree
contains a list construct yields `success = false`.  For a list document
that already fits the budget, the passthrough guard returns the text
unchanged with `success = true` before the tree is ever inspected. -/
theorem C5_counterexample :
    containsList (documentNode [listNode [paragraphNode [textNode "x"]]])
      = true ∧
    (MarkdownSplit (("1. x").toList)
      (documentNode [listNode [paragraphNode [textNode "x"]]]) 100 []
      uuidTok).2 = true := by decide

/-- C5 amended: for every text whose length exceeds `max`, if the parsed
tree contains a list construct anywhere, `MarkdownSplit` returns
`success = false` with chunks equal to `SimpleSplit` on the same
arguments. -/
theorem C5_list_fallback (text : Str) (tree : Node) (max : Nat)
    (sep tok : Str) (hlen : max < text.length)
    (hcl : containsList tree = true) :
    MarkdownSplit text tree max sep tok = (SimpleSplit text max sep, false) := by
  unfold MarkdownSplit
  rw [if_neg (by omega)]
  by_cases hsep : max ≤ sep.length
  · rw [if_pos hsep]
    unfold SimpleSplit
    rw [if_neg (by omega), if_pos hsep]
  · rw [if_neg hsep]
    cases hw : walkNode max sep [] tree initialWalkState with
    | term r => rfl
    | ok s =>
      exact absurd (walkNode_ok_no_list max sep _ _ _ _ hw)
        (by rw [hcl]; simp)

/-- Witness for C5 amended on an over-budget list document. -/
theorem C5_witness :
    MarkdownSplit (("1. First item").toList)
      (documentNode [listNode [paragraphNode [textNode "First item"]]]) 5 []
      uuidTok
      = (SimpleSplit (("1. First item").toList) 5 [], false) :=
  C5_list_fallback _ _ _ _ _ (by decide) (by decide)

-- C8

/-- C8 counterexample.  The claim states that a raw-HTML-span closing tag
that does not match the top of the stack is emitted as plain, *unwrapped*
content.  With the stack holding the open tag `<b>`, the mismatched closing
tag `</i>` is emitted as a piece carrying the `<b>`/`</b>` wrapper (it
renders as `<b></i></b>`), so the content is wrapped, falsifying the
"unwrapped" part; the stack itself is indeed left unchanged. -/
theorem C8_counterexample :
    visit 30 [] [paragraphNode [], documentNode []] (htmlSpanNode "</i>")
      (WalkState.mk [] [] 0 [⟨("<b>").toList, ("</b>").toList⟩]) =
      .next (WalkState.mk
        [Chunk.mk (("</i>").toList) [⟨("<b>").toList, ("</b>").toList⟩]]
        [] 0 [⟨("<b>").toList, ("</b>").toList⟩]) ∧
    (Chunk.mk (("</i>").toList)
      [⟨("<b>").toList, ("</b>").toList⟩]).wrappers ≠ [] ∧
    renderPiece (Chunk.mk (("</i>").toList)
      [⟨("<b>").toList, ("</b>").toList⟩]) = ("<b></i></b>").toList := by
  decide

/-- C8 amended: a raw-HTML-span node holding a closing tag that does not
equal the close text at the top of the HTML tag stack (or seen with an empty
stack) does not pop or modify the stack, and its literal text is kept as
ordinary content — emitted as a piece wrapped by the ancestor-derived
wrappers and all currently-open HTML wrappers (so it is plain, unwrapped
content exactly when both are absent). -/
theorem C8_mismatched_close (max : Nat) (sep lit : Str) (anc : List Node)
    (n : Node) (s : WalkState) (ws : List Wrapper)
    (htype : n.type = .htmlSpan) (hlit : n.literal = some lit)
    (hclose : isHTMLOpeningTag lit = false)
    (hmismatch : ∀ w, s.htmlWrappers.getLast? = some w → lit ≠ w.endStr)
    (hanc : ancestorWrappers lit (s.baseTitle.isEmpty && s.chunks.isEmpty) anc
      = .resolved ws)
    (hbudget : wrappersLen (ws ++ s.htmlWrappers) + s.titleLen + sep.length
      < max) :
    visit max sep anc n s = .next { s with
      chunks := s.chunks ++ buildChunks lit
        (max - (wrappersLen (ws ++ s.htmlWrappers) + s.titleLen + sep.length))
        (ws ++ s.htmlWrappers) } := by
  obtain ⟨t, lit0, lvl, ld, cs⟩ := n
  simp only [Node.type] at htype
  simp only [Node.literal] at hlit
  subst htype
  subst hlit
  have hadj : htmlAdjust lit s.htmlWrappers = (lit, s.htmlWrappers) := by
    unfold htmlAdjust
    rw [hclose]
    simp only [Bool.false_eq_true, if_false]
    cases hl : s.htmlWrappers.getLast? with
    | none => rfl
    | some w => exact if_neg (hmismatch w hl)
  have hne : ¬ (max ≤ wrappersLen (ws ++ s.htmlWrappers) + s.titleLen
      + sep.length) := by omega
  simp only [visit, Node.type, Node.literal, hanc, hadj, reduceIte]
  rw [if_neg hne, if_neg (show ¬ (NodeType.htmlSpan = NodeType.list) by decide)]

/-- Witness for C8 amended: mismatched `</i>` against stack top `</b>`. -/
theorem C8_witness :
    visit 30 [] [paragraphNode [], documentNode []] (htmlSpanNode "</i>")
      (WalkState.mk [] [] 0 [⟨("<b>").toList, ("</b>").toList⟩]) =
      .next { WalkState.mk [] [] 0 [⟨("<b>").toList, ("</b>").toList⟩] with
        chunks := [] ++ buildChunks (("</i>").toList)
          (30 - (wrappersLen ([] ++ [⟨("<b>").toList, ("</b>").toList⟩])
            + 0 + 0))
          ([] ++ [⟨("<b>").toList, ("</b>").toList⟩]) } :=
  C8_mismatched_close _ _ _ _ _ _ _ (by decide) (by decide) (by decide)
    (by intro w hw; simp only [List.getLast?_singleton,
      Option.some.injEq] at hw; subst hw; decide)
    (by decide) (by decide)

-- C4

/-- C4: the claim says the code content remaining after the first
(language/info) line and the trailing newline are removed is cut without
loss into the pieces.  The source uses `strings.TrimLeft(contents, prefix)`,
whose second argument is a *cutset*, not a prefix: for the code-span literal
`"go\ngo more"` the first line `"go\n"` is the cutset `g`,`o`,`\n`, which
also strips the `"go"` that begins the remaining content, leaving `" more"`.
The full pipeline on `"(three backticks)go\ngo more(three backticks)"`
 therefore emits `" more"` as the code content — the bytes `"go"` are lost,
contradicting the claim (and the spec's stated intent that only the first
line plus newline moves into the begin wrapper).  The code comment and the
variable name `prefix` show lossless prefix removal was the intent, so this
is recorded as a code bug. -/
theorem C4_trimleft_loses_content :
    codeAdjust (("go\ngo more").toList) =
      ((" more").toList, ⟨("```go\n").toList, ("\n```").toList⟩) ∧
    (" more").toList ≠ ("go more").toList ∧
    MarkdownSplit (("```go\ngo more```").toList)
      (documentNode [paragraphNode [codeNode "go\ngo more"]]) 15 [] uuidTok =
      ([("```go\n more\n```").toList], true) := by decide

-- Helper lemmas for SimpleSplit.

/-- Unfolding of `SimpleSplit` on the splitting branch. -/
theorem SimpleSplit_eq_map (text : Str) (max : Nat) (sep : Str)
    (hlen : max < text.length) (hsep : sep.length < max) :
    SimpleSplit text max sep =
      (List.range
        ((text.length + (max - sep.length) - 1) / (max - sep.length))).map
        (fun i =>
          (text.drop (i * (max - sep.length))).take (max - sep.length) ++
            (if i < (text.length + (max - sep.length) - 1) / (max - sep.length)
                - 1
             then sep else [])) := by
  unfold SimpleSplit
  rw [if_neg (by omega), if_neg (by omega)]

/-- Bounds characterising `(L + m - 1) / m` as the ceiling of `L / m`. -/
theorem ceilDiv_bounds (L m : Nat) (hm : 0 < m) (hL : 0 < L) :
    0 < (L + m - 1) / m ∧ L ≤ ((L + m - 1) / m) * m ∧
      (((L + m - 1) / m) - 1) * m < L := by
  have hdm := Nat.div_add_mod (L + m - 1) m
  have hmod : (L + m - 1) % m < m := Nat.mod_lt _ hm
  have hqpos : 0 < (L + m - 1) / m := Nat.div_pos (by omega) hm
  have hsm : (((L + m - 1) / m) - 1) * m = ((L + m - 1) / m) * m - m := by
    rw [Nat.sub_mul, one_mul]
  have hcm : m * ((L + m - 1) / m) = ((L + m - 1) / m) * m := Nat.mul_comm _ _
  omega

/-- Concatenating the `m`-sized slices of `text` up to `k` followed by the
rest of `text` yields `text`. -/
theorem flatten_slices (text : Str) (m : Nat) :
    ∀ k, ((List.range k).map
      (fun i => (text.drop (i * m)).take m)).flatten ++ text.drop (k * m)
      = text
  | 0 => by simp
  | k + 1 => by
    rw [List.range_succ, List.map_append, List.flatten_append]
    simp only [List.map_cons, List.map_nil, List.flatten_cons,
      List.flatten_nil, List.append_nil]
    rw [List.append_assoc, Nat.succ_mul, List.drop_take_append_drop]
    exact flatten_slices text m k

/-- Indexing a map over a range. -/
theorem getD_map_range (f : Nat → Str) (n i : Nat) (hi : i < n) :
    ((List.range n).map f).getD i [] = f i := by
  rw [List.getD_eq_getElem?_getD, List.getElem?_map, List.getElem?_range hi]
  rfl

-- C9

/-- C9: for `len(text) > max > len(sep)`, `SimpleSplit` returns exactly
`numChunks = ceil(len(text) / (max - len(sep)))` chunks (the first two
bound conjuncts characterise the ceiling), the `i`-th being the `i`-th
consecutive `max - len(sep)`-byte slice of `text` with `sep` appended to
every chunk but the last, each content slice at most `max - len(sep)`
bytes; and in particular
`SimpleSplit("Some basic comment", 10, "") = ["Some basic", " comment"]`. -/
theorem C9_simpleSplit_slices (text : Str) (max : Nat) (sep : Str)
    (hlen : max < text.length) (hsep : sep.length < max) :
    (SimpleSplit text max sep).length
      = (text.length + (max - sep.length) - 1) / (max - sep.length) ∧
    text.length ≤ (SimpleSplit text max sep).length * (max - sep.length) ∧
    ((SimpleSplit text max sep).length - 1) * (max - sep.length)
      < text.length ∧
    (∀ i, i < (SimpleSplit text max sep).length →
      (SimpleSplit text max sep).getD i []
        = (text.drop (i * (max - sep.length))).take (max - sep.length) ++
            (if i < (SimpleSplit text max sep).length - 1 then sep else []) ∧
      ((text.drop (i * (max - sep.length))).take (max - sep.length)).length
        ≤ max - sep.length) ∧
    SimpleSplit (("Some basic comment").toList) 10 []
      = [("Some basic").toList, (" comment").toList] := by
  have hm : 0 < max - sep.length := by omega
  have hL : 0 < text.length := by omega
  obtain ⟨hq, hub, hlb⟩ := ceilDiv_bounds text.length (max - sep.length) hm hL
  have hlength : (SimpleSplit text max sep).length
      = (text.length + (max - sep.length) - 1) / (max - sep.length) := by
    rw [SimpleSplit_eq_map text max sep hlen hsep]
    simp
  refine ⟨hlength, by rw [hlength]; exact hub, by rw [hlength]; exact hlb,
    ?_, by decide⟩
  intro i hi
  rw [hlength] at hi
  rw [SimpleSplit_eq_map text max sep hlen hsep]
  simp only [List.length_map, List.length_range]
  rw [getD_map_range _ _ _ hi]
  exact ⟨rfl, List.length_take_le _ _⟩

-- C10

/-- C10: for `len(text) > max > len(sep)`, every `SimpleSplit` chunk except
the last has byte length exactly `max`, and stripping the trailing `sep`
from every chunk except the last and concatenating everything in order
reconstructs `text` exactly. -/
theorem C10_simpleSplit_lossless (text : Str) (max : Nat) (sep : Str)
    (hlen : max < text.length) (hsep : sep.length < max) :
    (∀ i, i < (SimpleSplit text max sep).length - 1 →
      ((SimpleSplit text max sep).getD i []).length = max) ∧
    ((SimpleSplit text max sep).dropLast.map
        (fun c => c.take (c.length - sep.length))).flatten
      ++ (SimpleSplit text max sep).getLastD [] = text := by
  have hm : 0 < max - sep.length := by omega
  have hL : 0 < text.length := by omega
  obtain ⟨hq, hub, hlb⟩ := ceilDiv_bounds text.length (max - sep.length) hm hL
  set m := max - sep.length with hmdef
  set n := (text.length + m - 1) / m with hndef
  have hlength : (SimpleSplit text max sep).length = n := by
    rw [SimpleSplit_eq_map text max sep hlen hsep]
    simp
  have hcontent : ∀ i, i < n - 1 →
      ((text.drop (i * m)).take m).length = m := by
    intro i hi
    have hmul : (i + 1) * m ≤ (n - 1) * m :=
      Nat.mul_le_mul_right m (by omega)
    rw [List.length_take, List.length_drop]
    have : (i + 1) * m = i * m + m := by rw [Nat.succ_mul]
    omega
  constructor
  · intro i hi
    rw [hlength] at hi
    rw [SimpleSplit_eq_map text max sep hlen hsep, ← hndef,
      getD_map_range _ _ _ (by omega), if_pos hi]
    rw [List.length_append, hcontent i hi]
    omega
  · have hn : n = (n - 1) + 1 := by omega
    rw [SimpleSplit_eq_map text max sep hlen hsep, ← hmdef, ← hndef]
    rw [hn, List.range_succ, List.map_append, List.map_cons, List.map_nil]
    simp only [Nat.add_sub_cancel]
    rw [List.dropLast_concat, List.getLastD_concat]
    have hlast : (text.drop ((n - 1) * m)).take m ++
        (if n - 1 < n - 1 then sep else []) = text.drop ((n - 1) * m) := by
      rw [if_neg (by omega), List.append_nil]
      refine List.take_of_length_le ?_
      rw [List.length_drop]
      have : n * m = (n - 1) * m + m := by
        conv_lhs => rw [hn]
        rw [Nat.succ_mul]
      omega
    rw [hlast]
    have hmap : ((List.range (n - 1)).map (fun i =>
        (text.drop (i * m)).take m ++ (if i < n - 1 then sep else []))).map
          (fun c => c.take (c.length - sep.length))
        = (List.range (n - 1)).map (fun i => (text.drop (i * m)).take m) := by
      rw [List.map_map]
      refine List.map_congr_left ?_
      intro i hi
      rw [List.mem_range] at hi
      simp only [Function.comp]
      rw [if_pos hi, List.length_append, hcontent i hi]
      have harith : m + sep.length - sep.length = m := by omega
      rw [harith]
      exact List.take_left' (hcontent i hi)
    rw [hmap]
    exact flatten_slices text m (n - 1)

/-- Witness for C9 at text of 7 characters, max 3, sep ",". -/
theorem C9_witness :
    (SimpleSplit (("abcdefg").toList) 3 ((",").toList)).length = 4 ∧
    (SimpleSplit (("abcdefg").toList) 3 ((",").toList)).getD 0 []
      = (("ab").toList ++ ((",").toList)) := by
  have h := C9_simpleSplit_slices (("abcdefg").toList) 3 ((",").toList)
    (by decide) (by decide)
  refine ⟨(h.1).trans (by decide), ?_⟩
  have h0 := (h.2.2.2.1 0 (by rw [h.1]; decide)).1
  rw [h0]
  decide

/-- Witness for C10 at text of 7 characters, max 3, sep ",". -/
theorem C10_witness :
    ((SimpleSplit (("abcdefg").toList) 3 ((",").toList)).getD 0 []).length
      = 3 ∧
    ((SimpleSplit (("abcdefg").toList) 3 ((",").toList)).dropLast.map
        (fun c => c.take (c.length - ((",").toList).length))).flatten
      ++ (SimpleSplit (("abcdefg").toList) 3 ((",").toList)).getLastD []
      = ("abcdefg").toList := by
  have h := C10_simpleSplit_lossless (("abcdefg").toList) 3 ((",").toList)
    (by decide) (by decide)
  exact ⟨h.1 0 (by decide), h.2⟩

-- Helper lemmas about occurrences and replaceFirst.

/-- An occurrence inside the tail is an occurrence inside the whole list. -/
theorem occ_cons (c : Char) {t rest : Str} (h : t <:+: rest) :
    t <:+: c :: rest := by
  obtain ⟨x, y, hxy⟩ := h
  exact ⟨c :: x, y, by rw [← hxy]; rfl⟩

/-- An occurrence inside the left part extends to the appended list. -/
theorem occ_append_left {t a : Str} (b : Str) (h : t <:+: a) :
    t <:+: a ++ b := by
  obtain ⟨x, y, hxy⟩ := h
  exact ⟨x, y ++ b, by rw [← hxy]; simp⟩

/-- An occurrence inside the right part extends to the appended list. -/
theorem occ_append_right (a : Str) {t b : Str} (h : t <:+: b) :
    t <:+: a ++ b := by
  obtain ⟨x, y, hxy⟩ := h
  exact ⟨a ++ x, y, by rw [← hxy]; simp⟩

/-- A member of a list of strings occurs inside its concatenation. -/
theorem occ_flatten_of_mem {l : List Str} {a : Str} (h : a ∈ l) :
    a <:+: l.flatten := by
  induction l with
  | nil => cases h
  | cons x rest ih =>
    rcases List.mem_cons.mp h with hax | hmem
    · subst hax
      exact ⟨[], rest.flatten, by simp⟩
    · exact occ_append_right x (ih hmem)

/-- If the token occurs nowhere in `s`, `replaceFirst` leaves `s` alone
(the Go `strings.Replace(s, old, new, 1)` finds no occurrence). -/
theorem replaceFirst_of_no_occ : ∀ (s token new : Str),
    ¬ token <:+: s → replaceFirst s token new = s
  | [], token, new, _ => rfl
  | c :: rest, token, new, h => by
    rw [replaceFirst, if_neg, replaceFirst_of_no_occ rest token new
      (fun hocc => h (occ_cons c hocc))]
    intro hp
    rw [ List.isPrefixOf_iff_prefix] at hp
    obtain ⟨y, hy⟩ := hp
    exact h ⟨[], y, by rw [← hy]; rfl⟩

/-- A prefix occurrence of the token starting strictly inside `c :: x` is an
occurrence inside `(c :: x) ++ token.dropLast`. -/
theorem occ_dropLast_of_prefix_cons (token : Str) (htok : token ≠ [])
    (c : Char) (x y : Str)
    (hp : token <+: (c :: x) ++ token ++ y) :
    token <:+: ((c :: x) ++ token.dropLast) := by
  have htake := List.prefix_iff_eq_take.mp hp
  have hsplit : (c :: x) ++ token ++ y =
      ((c :: x) ++ token.dropLast) ++ ([token.getLast htok] ++ y) := by
    conv_lhs => rw [← List.dropLast_append_getLast htok]
    simp [List.append_assoc]
  have hlen : token.length ≤ ((c :: x) ++ token.dropLast).length := by
    rw [List.length_append, List.length_dropLast]
    have : 0 < token.length := List.length_pos.mpr htok
    simp only [List.length_cons]
    omega
  have htake2 : ((c :: x) ++ token ++ y).take token.length =
      ((c :: x) ++ token.dropLast).take token.length := by
    rw [hsplit, List.take_append_eq_append_take,
      Nat.sub_eq_zero_of_le hlen, List.take_zero, List.append_nil]
  rw [htake2] at htake
  have hpfx : token <+: ((c :: x) ++ token.dropLast) := by
    rw [List.prefix_iff_eq_take]
    exact htake
  obtain ⟨t, ht⟩ := hpfx
  exact ⟨[], t, by rw [← ht]; rfl⟩

/-- On `x ++ token ++ y`, `replaceFirst` replaces exactly the shown
occurrence, provided no occurrence of the token starts strictly earlier
(which `¬ token <:+: x ++ token.dropLast` guarantees). -/
theorem replaceFirst_append_token (token : Str) (htok : token ≠ []) :
    ∀ (x y new : Str), ¬ token <:+: (x ++ token.dropLast) →
      replaceFirst (x ++ token ++ y) token new = x ++ new ++ y := by
  intro x
  induction x with
  | nil =>
    intro y new _
    cases htoken : token with
    | nil => exact absurd htoken htok
    | cons t ts =>
      simp only [List.nil_append, List.cons_append]
      rw [replaceFirst, if_pos, List.length_cons, List.drop_succ_cons,
        List.drop_left]
      rw [ List.isPrefixOf_iff_prefix, ← List.cons_append]
      exact List.prefix_append _ _
  | cons c x ih =>
    intro y new h
    have hnp : ¬ (token.isPrefixOf ((c :: x) ++ token ++ y)) = true := by
      intro hp
      rw [ List.isPrefixOf_iff_prefix] at hp
      exact h (occ_dropLast_of_prefix_cons token htok c x y hp)
    have h2 : ¬ token <:+: (x ++ token.dropLast) := by
      intro hocc
      exact h (occ_cons c hocc)
    calc replaceFirst ((c :: x) ++ token ++ y) token new
        = replaceFirst (c :: (x ++ token ++ y)) token new := by
          simp [List.cons_append]
    _ = c :: replaceFirst (x ++ token ++ y) token new := by
          rw [replaceFirst, if_neg (by simpa using hnp)]
    _ = c :: (x ++ new ++ y) := by rw [ih y new h2]
    _ = (c :: x) ++ new ++ y := by simp [List.cons_append]

-- Fold characterisations for renderPiece.

/-- The begin-prepending fold of `chunksAsStr` equals the reversed
concatenation of the begins. -/
theorem foldl_begin_eq (ws : List Wrapper) (acc : Str) :
    ws.foldl (fun acc w => w.begin ++ acc) acc =
      ((ws.map (fun w => w.begin)).reverse).flatten ++ acc := by
  induction ws generalizing acc with
  | nil => simp
  | cons w rest ih =>
    rw [List.foldl_cons, ih, List.map_cons, List.reverse_cons,
      List.flatten_append]
    simp

/-- The end-appending fold of `chunksAsStr` equals the concatenation of the
ends. -/
theorem foldl_end_eq (ws : List Wrapper) (acc : Str) :
    ws.foldl (fun acc w => acc ++ w.endStr) acc =
      acc ++ (ws.map (fun w => w.endStr)).flatten := by
  induction ws generalizing acc with
  | nil => simp
  | cons w rest ih =>
    rw [List.foldl_cons, ih, List.map_cons, List.flatten_cons]
    simp

/-- Every wrapper's begin marker occurs inside the rendered piece. -/
theorem begin_occ_renderPiece (p : Chunk) (w : Wrapper)
    (hw : w ∈ p.wrappers) : w.begin <:+: renderPiece p := by
  unfold renderPiece
  rw [foldl_begin_eq, List.append_nil]
  refine occ_append_left _ (occ_append_left _ (occ_flatten_of_mem ?_))
  rw [List.mem_reverse]
  exact List.mem_map_of_mem _ hw

/-- Every wrapper's end marker occurs inside the rendered piece. -/
theorem endStr_occ_renderPiece (p : Chunk) (w : Wrapper)
    (hw : w ∈ p.wrappers) : w.endStr <:+: renderPiece p := by
  unfold renderPiece
  rw [foldl_end_eq, List.nil_append]
  exact occ_append_right _ (occ_flatten_of_mem (List.mem_map_of_mem _ hw))

-- Assembler invariant lemmas.

/-- Unfolding of `asmStep` when no chunk exists yet (stated through
`titleStr`, which is definitionally the title expression of the source). -/
theorem asmStep_of_nil (max : Nat) (baseTitle totalID : Str) (st : AsmState)
    (cm : Chunk) (h : st.revResult = []) :
    asmStep max baseTitle totalID st cm =
      ⟨[titleStr baseTitle totalID st.curChunk ++ renderPiece cm],
        st.curChunk + 1⟩ := by
  obtain ⟨rev, cur⟩ := st
  simp only at h
  subst h
  rfl

/-- Unfolding of `asmStep` when a previous chunk exists. -/
theorem asmStep_of_cons (max : Nat) (baseTitle totalID : Str) (st : AsmState)
    (cm : Chunk) (prev : Str) (rest : List Str)
    (h : st.revResult = prev :: rest) :
    asmStep max baseTitle totalID st cm =
      (if prev.length + (renderPiece cm).length ≤ max then
        ⟨(prev ++ renderPiece cm) :: rest, st.curChunk⟩
      else
        ⟨(titleStr baseTitle totalID st.curChunk ++ renderPiece cm)
          :: prev :: rest, st.curChunk + 1⟩) := by
  obtain ⟨rev, cur⟩ := st
  simp only at h
  subst h
  rfl

/-- The step `asmStep` preserves the assembler invariant, the new piece joining the
last chunk's group on a merge and opening a fresh group otherwise. -/
theorem asmStep_inv (max : Nat) (baseTitle totalID : Str)
    (processed : List Chunk) (st : AsmState) (cm : Chunk)
    (h : AsmInv baseTitle totalID processed st) :
    AsmInv baseTitle totalID (processed ++ [cm])
      (asmStep max baseTitle totalID st cm) := by
  obtain ⟨hcur, groupsRev, hglen, hflat, hne, hidx⟩ := h
  cases hrev : st.revResult with
  | nil =>
    rw [asmStep_of_nil max baseTitle totalID st cm hrev]
    rw [hrev] at hcur hglen hidx
    have hg0 : groupsRev = [] := List.length_eq_zero.mp (by simpa using hglen)
    rw [hg0] at hflat
    simp only [List.reverse_nil, List.flatten_nil] at hflat
    refine ⟨by simp [hcur], [[cm]], by simp, by simp [← hflat], by simp, ?_⟩
    intro j hj
    simp only [List.length_singleton] at hj
    have hj0 : j = 0 := by omega
    subst hj0
    simp [hcur]
  | cons prev rest =>
    rw [asmStep_of_cons max baseTitle totalID st cm prev rest hrev]
    rw [hrev] at hcur hglen hidx
    cases groupsRev with
    | nil => exact absurd hglen (by simp)
    | cons g0 gs =>
      by_cases hm : prev.length + (renderPiece cm).length ≤ max
      · rw [if_pos hm]
        refine ⟨by simpa using hcur, (g0 ++ [cm]) :: gs, by simpa using hglen,
          ?_, ?_, ?_⟩
        · rw [List.reverse_cons, List.flatten_append] at hflat ⊢
          simp only [List.flatten_cons, List.flatten_nil, List.append_nil]
            at hflat ⊢
          rw [← hflat, List.append_assoc]
        · intro g hg
          rcases List.mem_cons.mp hg with hg1 | hg2
          · subst hg1; simp
          · exact hne g (List.mem_cons_of_mem _ hg2)
        · intro j hj
          simp only [List.length_cons] at hj ⊢
          cases j with
          | zero =>
            have h0 := hidx 0 (by simp)
            simp only [List.getD_cons_zero] at h0 ⊢
            rw [h0, List.map_append, List.flatten_append]
            simp [List.append_assoc]
          | succ j' =>
            have hs := hidx (j' + 1) (by simpa using hj)
            simp only [List.getD_cons_succ, List.length_cons] at hs ⊢
            exact hs
      · rw [if_neg hm]
        refine ⟨by simp [hcur], [cm] :: g0 :: gs, by simpa using hglen, ?_,
          ?_, ?_⟩
        · rw [List.reverse_cons, List.flatten_append]
          simp only [List.flatten_cons, List.flatten_nil, List.append_nil]
          rw [hflat]
        · intro g hg
          rcases List.mem_cons.mp hg with hg1 | hg2
          · subst hg1; simp
          · exact hne g hg2
        · intro j hj
          simp only [List.length_cons] at hj ⊢
          cases j with
          | zero =>
            simp only [List.getD_cons_zero]
            have hcm : st.curChunk = rest.length + 1 + 1 := by
              simpa using hcur
            rw [Nat.sub_zero, ← hcm]
            simp
          | succ j' =>
            have hs := hidx j' (by simp only [List.length_cons]; omega)
            simp only [List.getD_cons_succ] at hs ⊢
            simp only [List.length_cons] at hs
            rw [hs]
            have harith : rest.length + 1 - j' = rest.length + 1 + 1 - (j' + 1) := by
              omega
            rw [harith]

/-- The assembler fold preserves the invariant over a whole piece list. -/
theorem foldl_asmStep_inv (max : Nat) (baseTitle totalID : Str) :
    ∀ (pieces : List Chunk) (processed : List Chunk) (st : AsmState),
      AsmInv baseTitle totalID processed st →
      AsmInv baseTitle totalID (processed ++ pieces)
        (pieces.foldl (asmStep max baseTitle totalID) st)
  | [], processed, st, h => by simpa using h
  | cm :: rest, processed, st, h => by
    rw [List.foldl_cons]
    have h2 := foldl_asmStep_inv max baseTitle totalID rest (processed ++ [cm])
      (asmStep max baseTitle totalID st cm)
      (asmStep_inv max baseTitle totalID processed st cm h)
    simpa [List.append_assoc] using h2

-- Generic getD helpers.

theorem getD_reverse' {α : Type} (d : α) (l : List α) (i : Nat)
    (hi : i < l.length) :
    l.reverse.getD i d = l.getD (l.length - 1 - i) d := by
  have h1 : i < l.reverse.length := by simpa using hi
  rw [List.getD_eq_getElem _ _ h1, List.getD_eq_getElem _ _ (by omega)]
  exact List.getElem_reverse ..

theorem getD_map' {α β : Type} (f : α → β) (l : List α) (i : Nat) (dα : α)
    (dβ : β) (hi : i < l.length) :
    (l.map f).getD i dβ = f (l.getD i dα) := by
  rw [List.getD_eq_getElem _ _ (by simpa using hi),
    List.getD_eq_getElem _ _ hi]
  exact List.getElem_map f

theorem getD_mem_str (l : List Str) (i : Nat) (hi : i < l.length) :
    l.getD i [] ∈ l := by
  rw [List.getD_eq_getElem _ _ hi]
  exact List.getElem_mem hi

/-- A concatenation of non-empty groups is at least as long as the list of
groups. -/
theorem length_le_flatten_length (gs : List (List Chunk))
    (h : ∀ g ∈ gs, g ≠ []) : gs.length ≤ gs.flatten.length := by
  induction gs with
  | nil => simp
  | cons g rest ih =>
    rw [List.length_cons, List.flatten_cons, List.length_append]
    have hg : 0 < g.length := List.length_pos.mpr (h g (by simp))
    have := ih (fun g2 hg2 => h g2 (List.mem_cons_of_mem _ hg2))
    omega

/-- Structure of the assembled chunks before the substitution pass: the
pieces partition into non-empty consecutive groups, one per output chunk,
and chunk `i` (0-based) is the title prefix for 1-based number `i + 1`
followed by the concatenated renders of its group. -/
theorem chunksAsStrPre_structure (pieces : List Chunk) (max : Nat)
    (bt tid : Str) :
    ∃ groups : List (List Chunk),
      groups.flatten = pieces ∧
      (∀ g ∈ groups, g ≠ []) ∧
      groups.length = (chunksAsStrPre pieces max bt tid).length ∧
      ∀ i, i < (chunksAsStrPre pieces max bt tid).length →
        (chunksAsStrPre pieces max bt tid).getD i [] =
          titleStr bt tid (i + 1) ++
            ((groups.getD i []).map renderPiece).flatten := by
  have h0 : AsmInv bt tid [] ⟨[], 1⟩ := ⟨rfl, [], rfl, rfl, by simp, by simp⟩
  have h := foldl_asmStep_inv max bt tid pieces [] ⟨[], 1⟩ h0
  rw [List.nil_append] at h
  obtain ⟨hcur, groupsRev, hglen, hflat, hne, hidx⟩ := h
  have hpre : chunksAsStrPre pieces max bt tid =
      (pieces.foldl (asmStep max bt tid) ⟨[], 1⟩).revResult.reverse := rfl
  refine ⟨groupsRev.reverse, by rw [hflat], ?_, ?_, ?_⟩
  · intro g hg
    exact hne g (List.mem_reverse.mp hg)
  · rw [hpre]
    simp [hglen]
  · intro i hi
    rw [hpre] at hi ⊢
    have hlen2 : i <
        (pieces.foldl (asmStep max bt tid) ⟨[], 1⟩).revResult.length := by
      simpa using hi
    rw [getD_reverse' [] _ i hlen2]
    have hidx2 := hidx _ (show
      (pieces.foldl (asmStep max bt tid) ⟨[], 1⟩).revResult.length - 1 - i <
        (pieces.foldl (asmStep max bt tid) ⟨[], 1⟩).revResult.length by omega)
    rw [hidx2]
    have harith :
        (pieces.foldl (asmStep max bt tid) ⟨[], 1⟩).revResult.length -
          ((pieces.foldl (asmStep max bt tid) ⟨[], 1⟩).revResult.length - 1
            - i) = i + 1 := by
      omega
    rw [harith]
    have hglen2 : i < groupsRev.length := by rw [hglen]; exact hlen2
    rw [getD_reverse' [] groupsRev i hglen2, hglen]

/-- Structure of the final chunks of `chunksAsStr`: as before substitution,
with the placeholder token in each title replaced by the decimal chunk
count (the body of every chunk is untouched by the substitution, and
untitled chunks are left entirely alone). -/
theorem chunksAsStr_structure (pieces : List Chunk) (max : Nat)
    (bt token : Str) (htok : TokenOK token bt pieces max) :
    ∃ groups : List (List Chunk),
      groups.flatten = pieces ∧
      (∀ g ∈ groups, g ≠ []) ∧
      groups.length = (chunksAsStr pieces max bt token).length ∧
      ∀ i, i < (chunksAsStr pieces max bt token).length →
        (chunksAsStr pieces max bt token).getD i [] =
          (if bt = [] then [] else
            bt ++ (" (").toList ++ (Nat.repr (i + 1)).toList ++ ("/").toList
              ++ (Nat.repr (chunksAsStr pieces max bt token).length).toList
              ++ ((")\n\n").toList)) ++
            ((groups.getD i []).map renderPiece).flatten := by
  obtain ⟨htok1, htok2, htok3⟩ := htok
  obtain ⟨groups, hflat, hne, hglen, hidx⟩ :=
    chunksAsStrPre_structure pieces max bt token
  have hlenout : (chunksAsStr pieces max bt token).length =
      (chunksAsStrPre pieces max bt token).length := by
    unfold chunksAsStr
    simp
  refine ⟨groups, hflat, hne, by rw [hlenout]; exact hglen, ?_⟩
  intro i hi
  rw [hlenout] at hi
  have hmap : (chunksAsStr pieces max bt token).getD i [] =
      replaceFirst ((chunksAsStrPre pieces max bt token).getD i []) token
        ((Nat.repr (chunksAsStrPre pieces max bt token).length).toList) := by
    unfold chunksAsStr
    exact getD_map' _ _ i [] [] hi
  rw [hmap]
  by_cases hbt : bt = []
  · rw [replaceFirst_of_no_occ _ _ _ (htok3 hbt _ (getD_mem_str _ _ hi))]
    rw [hidx i hi, hbt]
    simp [titleStr]
  · have hibound : i + 1 < pieces.length + 2 := by
      have h1 : groups.length ≤ pieces.length := by
        rw [← hflat]
        exact length_le_flatten_length groups hne
      omega
    have hform : (chunksAsStrPre pieces max bt token).getD i [] =
        (bt ++ (" (").toList ++ (Nat.repr (i + 1)).toList ++ ("/").toList)
          ++ token ++
          (((")\n\n").toList) ++ ((groups.getD i []).map renderPiece).flatten) := by
      rw [hidx i hi]
      simp only [titleStr, if_neg hbt, renderTitleSuffix]
      simp [List.append_assoc]
    rw [hform]
    rw [replaceFirst_append_token token htok1 _ _ _ ?hfresh]
    case hfresh =>
      have h2 := htok2 (i + 1) hibound
      intro hocc
      apply h2
      simpa [List.append_assoc] using hocc
    rw [if_neg hbt, hlenout]
    simp [List.append_assoc]

-- C2

/-- C2: when the walk completes with a captured (non-empty) pagination base
title — which is what happens when the document's first markdown construct
is a heading — and the guards pass (text longer than `max`,
`len(sep) < max`), `MarkdownSplit` succeeds and every chunk `i` (0-based; so
1-based `i + 1` ranging over `1..N` in output order) begins with the same
base heading text followed by `" (i+1/N)\n\n"`, where `N` is the literal
decimal total chunk count substituted for the unique placeholder token in
the final pass.  `TokenOK` states the uniqueness contract of the externally
provided token. -/
theorem C2_pagination_numbering (text : Str) (tree : Node) (max : Nat)
    (sep tok : Str) (s : WalkState)
    (hlen : max < text.length) (hsep : sep.length < max)
    (hwalk : walkNode max sep [] tree initialWalkState = .ok s)
    (hbt : s.baseTitle ≠ [])
    (htok : TokenOK tok s.baseTitle s.chunks max) :
    (MarkdownSplit text tree max sep tok).2 = true ∧
    ∀ i, i < (MarkdownSplit text tree max sep tok).1.length →
      (s.baseTitle ++ (" (").toList ++ (Nat.repr (i + 1)).toList ++
        ("/").toList ++
        (Nat.repr (MarkdownSplit text tree max sep tok).1.length).toList ++
        ((")\n\n").toList))
        <+: (MarkdownSplit text tree max sep tok).1.getD i [] := by
  have hout : MarkdownSplit text tree max sep tok =
      (chunksAsStr s.chunks max s.baseTitle tok, true) := by
    unfold MarkdownSplit
    rw [if_neg (by omega), if_neg (by omega), hwalk]
  have h1 : (MarkdownSplit text tree max sep tok).1 =
      chunksAsStr s.chunks max s.baseTitle tok := by rw [hout]
  have h2 : (MarkdownSplit text tree max sep tok).2 = true := by rw [hout]
  rw [h1, h2]
  refine ⟨rfl, ?_⟩
  intro i hi
  obtain ⟨groups, hflat, hne, hglen, hidx⟩ :=
    chunksAsStr_structure s.chunks max s.baseTitle tok htok
  rw [hidx i hi, if_neg hbt]
  exact List.prefix_append _ _

/-- Witness for C2 on the repository's own titled test document. -/
theorem C2_witness :
    (MarkdownSplit
      (("### Comment with title\n\nIncludes the title in every split.").toList)
      (documentNode [headingNode 3 [textNode "Comment with title"],
        paragraphNode [textNode "Includes the title in every split."]])
      55 [] uuidTok).2 = true ∧
    ((("### Comment with title").toList) ++ (" (").toList ++
      (Nat.repr 1).toList ++ ("/").toList ++
      (Nat.repr (MarkdownSplit
        (("### Comment with title\n\nIncludes the title in every split.").toList)
        (documentNode [headingNode 3 [textNode "Comment with title"],
          paragraphNode [textNode "Includes the title in every split."]])
        55 [] uuidTok).1.length).toList ++ ((")\n\n").toList))
      <+: (MarkdownSplit
        (("### Comment with title\n\nIncludes the title in every split.").toList)
        (documentNode [headingNode 3 [textNode "Comment with title"],
          paragraphNode [textNode "Includes the title in every split."]])
        55 [] uuidTok).1.getD 0 [] := by
  have h := C2_pagination_numbering
    (("### Comment with title\n\nIncludes the title in every split.").toList)
    (documentNode [headingNode 3 [textNode "Comment with title"],
      paragraphNode [textNode "Includes the title in every split."]])
    55 [] uuidTok
    (WalkState.mk [⟨("Includes the ").toList, []⟩,
      ⟨("title in ever").toList, []⟩, ⟨("y split.").toList, []⟩]
      (("### Comment with title").toList) 42 [])
    (by decide) (by decide) (by decide) (by decide)
    (by unfold TokenOK; decide)
  exact ⟨h.1, h.2 0 (by decide)⟩

-- C3

/-- C3: on every input where the markdown-aware split succeeds (walk
completed, guards passed, token unique per `TokenOK`), the pieces partition
into consecutive groups, one group per output chunk in order, and for every
piece of a chunk's group, every wrapper applied to that piece has both its
opening marker and its matching closing marker occurring within that same
chunk — a piece's decorations never straddle a chunk boundary. -/
theorem C3_wrapper_markers (text : Str) (tree : Node) (max : Nat)
    (sep tok : Str) (s : WalkState)
    (hlen : max < text.length) (hsep : sep.length < max)
    (hwalk : walkNode max sep [] tree initialWalkState = .ok s)
    (htok : TokenOK tok s.baseTitle s.chunks max) :
    (MarkdownSplit text tree max sep tok).2 = true ∧
    ∃ groups : List (List Chunk),
      groups.flatten = s.chunks ∧
      groups.length = (MarkdownSplit text tree max sep tok).1.length ∧
      ∀ i, i < (MarkdownSplit text tree max sep tok).1.length →
        ∀ p ∈ groups.getD i [], ∀ w ∈ p.wrappers,
          w.begin <:+: (MarkdownSplit text tree max sep tok).1.getD i [] ∧
          w.endStr <:+: (MarkdownSplit text tree max sep tok).1.getD i [] := by
  have hout : MarkdownSplit text tree max sep tok =
      (chunksAsStr s.chunks max s.baseTitle tok, true) := by
    unfold MarkdownSplit
    rw [if_neg (by omega), if_neg (by omega), hwalk]
  have h1 : (MarkdownSplit text tree max sep tok).1 =
      chunksAsStr s.chunks max s.baseTitle tok := by rw [hout]
  have h2 : (MarkdownSplit text tree max sep tok).2 = true := by rw [hout]
  rw [h1, h2]
  obtain ⟨groups, hflat, hne, hglen, hidx⟩ :=
    chunksAsStr_structure s.chunks max s.baseTitle tok htok
  refine ⟨rfl, groups, hflat, hglen, ?_⟩
  intro i hi p hp w hw
  rw [hidx i hi]
  have hrp : renderPiece p <:+:
      ((groups.getD i []).map renderPiece).flatten :=
    occ_flatten_of_mem (List.mem_map_of_mem _ hp)
  exact ⟨occ_append_right _ ((begin_occ_renderPiece p w hw).trans hrp),
    occ_append_right _ ((endStr_occ_renderPiece p w hw).trans hrp)⟩

/-- Witness for C3 on an HTML-span document whose pieces carry a wrapper. -/
theorem C3_witness :
    (MarkdownSplit (("<i>abcdefghij</i>").toList)
      (documentNode [paragraphNode [htmlSpanNode "<i>",
        textNode "abcdefghij", htmlSpanNode "</i>"]]) 12 [] uuidTok).2
      = true ∧
    ∃ groups : List (List Chunk),
      groups.flatten = (WalkState.mk
        [⟨("abcde").toList, [⟨("<i>").toList, ("</i>").toList⟩]⟩,
         ⟨("fghij").toList, [⟨("<i>").toList, ("</i>").toList⟩]⟩]
        [] 0 []).chunks ∧
      groups.length = (MarkdownSplit (("<i>abcdefghij</i>").toList)
        (documentNode [paragraphNode [htmlSpanNode "<i>",
          textNode "abcdefghij", htmlSpanNode "</i>"]]) 12 []
        uuidTok).1.length ∧
      ∀ i, i < (MarkdownSplit (("<i>abcdefghij</i>").toList)
        (documentNode [paragraphNode [htmlSpanNode "<i>",
          textNode "abcdefghij", htmlSpanNode "</i>"]]) 12 []
        uuidTok).1.length →
        ∀ p ∈ groups.getD i [], ∀ w ∈ p.wrappers,
          w.begin <:+: (MarkdownSplit (("<i>abcdefghij</i>").toList)
            (documentNode [paragraphNode [htmlSpanNode "<i>",
              textNode "abcdefghij", htmlSpanNode "</i>"]]) 12 []
            uuidTok).1.getD i [] ∧
          w.endStr <:+: (MarkdownSplit (("<i>abcdefghij</i>").toList)
            (documentNode [paragraphNode [htmlSpanNode "<i>",
              textNode "abcdefghij", htmlSpanNode "</i>"]]) 12 []
            uuidTok).1.getD i [] :=
  C3_wrapper_markers (("<i>abcdefghij</i>").toList)
    (documentNode [paragraphNode [htmlSpanNode "<i>",
      textNode "abcdefghij", htmlSpanNode "</i>"]]) 12 [] uuidTok
    (WalkState.mk
      [⟨("abcde").toList, [⟨("<i>").toList, ("</i>").toList⟩]⟩,
       ⟨("fghij").toList, [⟨("<i>").toList, ("</i>").toList⟩]⟩]
      [] 0 [])
    (by decide) (by decide) (by decide) (by unfold TokenOK; decide)

-- C1: supporting development.  The overflow needs 10^7 chunks, far beyond
-- kernel evaluation, so the failing run is evaluated symbolically: the walk
-- of a document `# T` + 10^7 * "a" at max = 24 yields 10^7 one-byte pieces,
-- and the assembler's chunk number 10^6 ends up 25 bytes long after the
-- placeholder substitution.

/-- At budget 1, `buildChunks` cuts a replicated string into that many
one-character pieces. -/
theorem buildChunksFuel_replicate_one (ws : List Wrapper) :
    ∀ n, buildChunksFuel n (List.replicate n 'a') 1 ws
      = List.replicate n ⟨['a'], ws⟩
  | 0 => rfl
  | n + 1 => by
    rw [List.replicate_succ, buildChunksFuel]
    cases n with
    | zero => simp
    | succ m =>
      rw [if_neg (by simp)]
      rw [List.take_succ_cons, List.take_zero, List.drop_succ_cons,
        List.drop_zero, List.replicate_succ]
      exact congrArg _ (buildChunksFuel_replicate_one ws (m + 1))

theorem buildChunks_replicate_one (ws : List Wrapper) (n : Nat) :
    buildChunks (List.replicate n 'a') 1 ws = List.replicate n ⟨['a'], ws⟩ := by
  unfold buildChunks
  rw [List.length_replicate]
  exact buildChunksFuel_replicate_one ws n

-- Small-step equations for the walk.

theorem walkList_cons_of_ok (max : Nat) (sep : Str) (anc : List Node)
    (c : Node) (cs : List Node) (s s1 : WalkState)
    (h : walkNode max sep anc c s = .ok s1) :
    walkList max sep anc (c :: cs) s = walkList max sep anc cs s1 := by
  rw [walkList, h]

theorem walkNode_of_next (max : Nat) (sep : Str) (anc : List Node) (n : Node)
    (s s1 : WalkState) (h : visit max sep anc n s = .next s1) :
    walkNode max sep anc n s = walkList max sep (n :: anc) n.children s1 := by
  obtain ⟨t, lit, lvl, ld, cs⟩ := n
  rw [walkNode, h]
  rfl

/-- Visiting a plain text leaf under wrapper-free ancestors, with no base
title to capture and an empty HTML stack, appends the pieces of its literal
and changes nothing else. -/
theorem visit_text_simple (max : Nat) (sep lit : Str) (anc : List Node)
    (chunks : List Chunk) (bt : Str) (tl : Nat)
    (hanc : ancestorWrappers lit (bt.isEmpty && chunks.isEmpty) anc
      = .resolved [])
    (hbudget : tl + sep.length < max) :
    visit max sep anc (Node.mk .text (some lit) 0 ⟨[], []⟩ [])
      (WalkState.mk chunks bt tl []) =
      .next (WalkState.mk
        (chunks ++ buildChunks lit (max - (tl + sep.length)) []) bt tl []) := by
  simp only [visit, Node.type, Node.literal, hanc]
  rw [if_neg (show ¬ (NodeType.text = NodeType.list) by decide)]
  have h0 : wrappersLen ([] ++ ([] : List Wrapper)) = 0 := rfl
  rw [h0, if_neg (show ¬ (max ≤ 0 + tl + sep.length) by omega)]
  simp

/-- The walk of the overflow document: one captured base title `# T`
(reserved length 23) and `n` one-byte pieces. -/
theorem walk_bigdoc (n : Nat) :
    walkNode 24 [] []
      (documentNode [headingNode 1 [textNode "T"],
        paragraphNode [Node.mk .text (some (List.replicate n 'a')) 0
          ⟨[], []⟩ []]])
      initialWalkState
      = .ok ⟨List.replicate n ⟨['a'], []⟩, ("# T").toList, 23, []⟩ := by
  rw [walkNode_of_next _ _ _ _ _ _
    (show visit 24 [] []
      (documentNode [headingNode 1 [textNode "T"],
        paragraphNode [Node.mk .text (some (List.replicate n 'a')) 0
          ⟨[], []⟩ []]]) initialWalkState = .next initialWalkState from rfl)]
  rw [show (documentNode [headingNode 1 [textNode "T"],
        paragraphNode [Node.mk .text (some (List.replicate n 'a')) 0
          ⟨[], []⟩ []]]).children =
      [headingNode 1 [textNode "T"],
        paragraphNode [Node.mk .text (some (List.replicate n 'a')) 0
          ⟨[], []⟩ []]] from rfl]
  rw [walkList_cons_of_ok _ _ _ _ _ _
    (WalkState.mk [] (("# T").toList) 23 []) (by rfl)]
  rw [walkList_cons_of_ok _ _ _ _ _ _
    (WalkState.mk (List.replicate n ⟨['a'], []⟩) (("# T").toList) 23 []) ?_]
  · rfl
  · rw [walkNode_of_next _ _ _ _ _ _
      (show visit 24 [] _
        (paragraphNode [Node.mk .text (some (List.replicate n 'a')) 0
          ⟨[], []⟩ []])
        (WalkState.mk [] (("# T").toList) 23 []) =
        .next (WalkState.mk [] (("# T").toList) 23 []) from rfl)]
    rw [show (paragraphNode [Node.mk .text (some (List.replicate n 'a')) 0
        ⟨[], []⟩ []]).children =
      [Node.mk .text (some (List.replicate n 'a')) 0 ⟨[], []⟩ []] from rfl]
    rw [walkList_cons_of_ok _ _ _ _ _ _
      (WalkState.mk ([] ++ buildChunks (List.replicate n 'a')
        (24 - (23 + 0)) []) (("# T").toList) 23 []) ?_]
    · rw [show ([] ++ buildChunks (List.replicate n 'a') (24 - (23 + 0)) [])
        = List.replicate n ⟨['a'], []⟩ from by
          rw [List.nil_append]
          rw [show 24 - (23 + 0) = 1 from rfl]
          exact buildChunks_replicate_one [] n]
      rfl
    · rw [walkNode_of_next _ _ _ _ _ _
        (visit_text_simple 24 [] (List.replicate n 'a')
          [paragraphNode [Node.mk .text (some (List.replicate n 'a')) 0
            ⟨[], []⟩ []],
           documentNode [headingNode 1 [textNode "T"],
            paragraphNode [Node.mk .text (some (List.replicate n 'a')) 0
              ⟨[], []⟩ []]]] []
          (("# T").toList) 23 rfl (by decide))]
      rfl

/-- Length of the title prefix of the overflow document: at least 24 for
every chunk number (so a rendered one-byte piece never merges into the
previous chunk while the 38-byte placeholder is in place). -/
theorem titleStr_len_ge (c : Nat) :
    24 ≤ (titleStr (("# T").toList) uuidTok c).length := by
  rw [titleStr, if_neg (by decide), renderTitleSuffix]
  simp only [List.length_append]
  have h1 : (("# T").toList).length = 3 := rfl
  have h2 : ((" (").toList).length = 2 := rfl
  have h3 : ((("/").toList)).length = 1 := rfl
  have h4 : uuidTok.length = 38 := rfl
  have h5 : ((((")\n\n").toList))).length = 3 := rfl
  omega

/-- Closed form of the assembler fold over `n` identical one-byte pieces of
the overflow document: no piece ever merges, so each opens its own chunk
with the next title number. -/
theorem asm_fold_replicate :
    ∀ (n : Nat) (st : AsmState),
      (st.revResult = [] ∨
        ∃ hd tl, st.revResult = hd :: tl ∧ 24 < hd.length + 1) →
      (List.replicate n (Chunk.mk ['a'] [])).foldl
        (asmStep 24 (("# T").toList) uuidTok) st =
        ⟨((List.range n).map (fun j =>
            titleStr (("# T").toList) uuidTok (st.curChunk + j) ++ ['a'])).reverse
          ++ st.revResult, st.curChunk + n⟩
  | 0, st, _ => by simp
  | n + 1, st, h => by
    rw [List.replicate_succ, List.foldl_cons]
    have hstep : asmStep 24 (("# T").toList) uuidTok st (Chunk.mk ['a'] []) =
        ⟨(titleStr (("# T").toList) uuidTok st.curChunk ++ ['a'])
          :: st.revResult, st.curChunk + 1⟩ := by
      rcases h with h0 | ⟨hd, tl, heq, hbig⟩
      · rw [asmStep_of_nil _ _ _ _ _ h0, h0]
        rfl
      · rw [asmStep_of_cons _ _ _ _ _ hd tl heq, if_neg (by
          have hrp : (renderPiece (Chunk.mk ['a'] [])).length = 1 := rfl
          omega), heq]
        rfl
    rw [hstep]
    have ih := asm_fold_replicate n
      ⟨(titleStr (("# T").toList) uuidTok st.curChunk ++ ['a'])
        :: st.revResult, st.curChunk + 1⟩
      (Or.inr ⟨_, _, rfl, by
        rw [List.length_append]
        have := titleStr_len_ge st.curChunk
        simp only [List.length_singleton]
        omega⟩)
    rw [ih]
    have hfun : (List.range n).map (fun j =>
        titleStr (("# T").toList) uuidTok (st.curChunk + 1 + j) ++ ['a'])
        = (List.range n).map ((fun j =>
            titleStr (("# T").toList) uuidTok (st.curChunk + j) ++ ['a'])
          ∘ Nat.succ) := by
      refine List.map_congr_left ?_
      intro j _
      simp only [Function.comp]
      rw [show st.curChunk + 1 + j = st.curChunk + (j + 1) from by omega]
    have hrange : ((List.range (n + 1)).map (fun j =>
        titleStr (("# T").toList) uuidTok (st.curChunk + j) ++ ['a'])).reverse
        = ((List.range n).map (fun j =>
            titleStr (("# T").toList) uuidTok (st.curChunk + 1 + j)
              ++ ['a'])).reverse
          ++ [titleStr (("# T").toList) uuidTok (st.curChunk + 0) ++ ['a']] := by
      rw [List.range_succ_eq_map, List.map_cons, List.map_map, List.reverse_cons,
        hfun]
    rw [hrange]
    simp only [Nat.add_zero]
    rw [List.append_assoc, List.singleton_append]
    have : st.curChunk + 1 + n = st.curChunk + (n + 1) := by omega
    rw [this]

/-- The assembled chunks of the overflow document before substitution. -/
theorem chunksAsStrPre_replicate (n : Nat) :
    chunksAsStrPre (List.replicate n (Chunk.mk ['a'] [])) 24
      (("# T").toList) uuidTok
      = (List.range n).map (fun j =>
          titleStr (("# T").toList) uuidTok (1 + j) ++ ['a']) := by
  unfold chunksAsStrPre
  rw [asm_fold_replicate n ⟨[], 1⟩ (Or.inl rfl)]
  simp

set_option maxRecDepth 8000 in
/-- C1: at the failing input (a document with leading heading `# T` and
10^7 content bytes, max = 24, sep = ""), `MarkdownSplit` reports success
with 10^7 chunks, but chunk number 10^6 — `"# T (1000000/10000000)\n\na"` —
is 25 bytes long, exceeding max = 24: the 10-byte safety margin reserved
for the title cannot cover 7 + 8 digits of `i`/`N`, contradicting the
claimed length bound (and the repository's own test assertion). -/
theorem C1_title_margin_overflow :
    (MarkdownSplit (List.replicate 25 'a')
      (documentNode [headingNode 1 [textNode "T"],
        paragraphNode [Node.mk .text (some (List.replicate 10000000 'a')) 0
          ⟨[], []⟩ []]]) 24 [] uuidTok).2 = true ∧
    (MarkdownSplit (List.replicate 25 'a')
      (documentNode [headingNode 1 [textNode "T"],
        paragraphNode [Node.mk .text (some (List.replicate 10000000 'a')) 0
          ⟨[], []⟩ []]]) 24 [] uuidTok).1.length = 10000000 ∧
    24 < ((MarkdownSplit (List.replicate 25 'a')
      (documentNode [headingNode 1 [textNode "T"],
        paragraphNode [Node.mk .text (some (List.replicate 10000000 'a')) 0
          ⟨[], []⟩ []]]) 24 [] uuidTok).1.getD 999999 []).length := by
  have hout : MarkdownSplit (List.replicate 25 'a')
      (documentNode [headingNode 1 [textNode "T"],
        paragraphNode [Node.mk .text (some (List.replicate 10000000 'a')) 0
          ⟨[], []⟩ []]]) 24 [] uuidTok =
      (chunksAsStr (List.replicate 10000000 (Chunk.mk ['a'] [])) 24
        (("# T").toList) uuidTok, true) := by
    unfold MarkdownSplit
    rw [if_neg (by simp), if_neg (by decide), walk_bigdoc 10000000]
  rw [hout]
  have hlenpre : (chunksAsStrPre
      (List.replicate 10000000 (Chunk.mk ['a'] [])) 24 (("# T").toList)
      uuidTok).length = 10000000 := by
    rw [chunksAsStrPre_replicate]
    simp
  have hlen : (chunksAsStr (List.replicate 10000000 (Chunk.mk ['a'] [])) 24
      (("# T").toList) uuidTok).length = 10000000 := by
    unfold chunksAsStr
    rw [List.length_map, hlenpre]
  constructor
  · rfl
  constructor
  · rw [hlen]
  have hget : (chunksAsStr (List.replicate 10000000 (Chunk.mk ['a'] [])) 24
      (("# T").toList) uuidTok).getD 999999 [] =
      replaceFirst ((chunksAsStrPre
        (List.replicate 10000000 (Chunk.mk ['a'] [])) 24 (("# T").toList)
        uuidTok).getD 999999 []) uuidTok
        ((Nat.repr (chunksAsStrPre
          (List.replicate 10000000 (Chunk.mk ['a'] [])) 24 (("# T").toList)
          uuidTok).length).toList) := by
    unfold chunksAsStr
    exact getD_map' _ _ 999999 [] [] (by rw [hlenpre]; omega)
  rw [hget, hlenpre]
  have hpre : (chunksAsStrPre
      (List.replicate 10000000 (Chunk.mk ['a'] [])) 24 (("# T").toList)
      uuidTok).getD 999999 [] =
      titleStr (("# T").toList) uuidTok (1 + 999999) ++ ['a'] := by
    rw [chunksAsStrPre_replicate]
    exact getD_map_range _ 10000000 999999 (by omega)
  rw [hpre, show (1 + 999999) = 1000000 from rfl]
  have hshape : titleStr (("# T").toList) uuidTok 1000000 ++ ['a'] =
      ((("# T").toList ++ (" (").toList ++ (Nat.repr 1000000).toList
        ++ ("/").toList) ++ uuidTok ++
        (((")\n\n").toList) ++ ['a'])) := by
    rw [titleStr, if_neg (by decide), renderTitleSuffix]
    simp [List.append_assoc]
  rw [hshape]
  rw [replaceFirst_append_token uuidTok (by decide) _ _ _ (by decide)]
  decide

end MdSplit
